import Mathlib

/-!
Shallow embedding of the core of `src/Untitled2.py`: the wheel resolver
`roulette_neighbors` and the input parser `parse_input`, together with
proofs of the specification's testable properties.

Python integers are modelled as `Int` (Python `%` with positive modulus
agrees with Lean's `Int.emod`), Python lists as `List`, the Python `dict`
as an insertion-ordered association list with in-place value update
(Python dict semantics: last write wins, first-insertion position kept),
and a raised `ValueError` as the `error` branch of `Except`, with the
data interpolated into the message carried by the error constructor.
-/

/-- The fixed 37-entry European wheel sequence, literal from the source. -/
def roulette_wheel : List Int :=
  [0, 32, 15, 19, 4, 21, 2, 25, 17, 34, 6,
   27, 13, 36, 11, 30, 8, 23, 10, 5, 24,
   16, 33, 1, 20, 14, 31, 9, 22, 18, 29,
   7, 28, 12, 35, 3, 26]

/-- `total_numbers = len(roulette_wheel)` in the source. -/
def total_numbers : Nat := roulette_wheel.length

/-- Python `range(a, b)` over `Int`: the integers `a, a+1, …, b-1`. -/
def intRange (a b : Int) : List Int :=
  (List.range (b - a).toNat).map (fun (j : Nat) => a + (j : Int))

/-- Python list indexing `roulette_wheel[k % total_numbers]` for `k : Int`:
`%` on a positive modulus yields an index in `0..36`. -/
def wheelAt (k : Int) : Int :=
  roulette_wheel.getD (k % (total_numbers : Int)).toNat 0

/-- The list comprehension of the source: neighbors of `number` at radius
`neighbor_count`, offsets `-neighbor_count .. neighbor_count` around the
index of `number` in the wheel, wrapping modulo 37. -/
def neighborsOf (number neighbor_count : Int) : List Int :=
  let index : Int := (roulette_wheel.indexOf number : Nat)
  (intRange (-neighbor_count) (neighbor_count + 1)).map
    (fun i => wheelAt (index + i))

/-- The two `ValueError`s that `roulette_neighbors` can raise, with the
data its f-string messages embed. -/
inductive ResolveError where
  | NumberOutOfRange (number : Int)
  | NegativeNeighborCount (number : Int)
  deriving Repr, DecidableEq

/-- One Python-`dict` binding: requested number ↦ its neighbor list. -/
abbrev Dict := List (Int × List Int)

/-- `result[number] = neighbors` on a Python dict: update the value in
place when the key is present, append the binding otherwise. -/
def dictInsert (m : Dict) (k : Int) (v : List Int) : Dict :=
  if m.any (fun p => p.1 = k) then
    m.map (fun p => if p.1 = k then (k, v) else p)
  else
    m ++ [(k, v)]

/-- Dict lookup `m[k]`, as an `Option`. -/
def dictGet? (m : Dict) (k : Int) : Option (List Int) :=
  (m.find? (fun p => p.1 = k)).map Prod.snd

/-- The `for` loop of `roulette_neighbors`: validate each pair, extend the
result dict; a raised error aborts the loop with no partial result. -/
def rouletteLoop : List (Int × Int) → Dict → Except ResolveError Dict
  | [], result => .ok result
  | (number, neighbor_count) :: rest, result =>
    if number ∉ roulette_wheel then
      .error (.NumberOutOfRange number)
    else if neighbor_count < 0 then
      .error (.NegativeNeighborCount number)
    else
      rouletteLoop rest (dictInsert result number (neighborsOf number neighbor_count))

/-- `roulette_neighbors` from the source: map each `(number, neighbor_count)`
pair to the cyclic neighbor slice, last write winning on duplicate numbers. -/
def roulette_neighbors (number_neighbor_pairs : List (Int × Int)) :
    Except ResolveError Dict :=
  rouletteLoop number_neighbor_pairs []

/-- The three `ValueError`s that `parse_input` can raise, each carrying the
offending segment verbatim as its f-string message does. -/
inductive ParseError where
  | InvalidPairTokens (pair : String)
  | InvalidSingleToken (pair : String)
  | InvalidSegmentFormat (pair : String)
  deriving Repr, DecidableEq

/-- Python `input_str.split(',')` on the character list: cut at every comma,
keeping empty segments (so `''.split(',') == ['']`). -/
def splitCommaAux : List Char → List Char → List (List Char)
  | [], cur => [cur.reverse]
  | c :: cs, cur =>
    if c = ',' then cur.reverse :: splitCommaAux cs []
    else splitCommaAux cs (c :: cur)

/-- `input_str.split(',')`. -/
def splitComma (s : List Char) : List (List Char) :=
  splitCommaAux s []

/-- Python `s.strip()`: drop leading and trailing whitespace. -/
def pyStrip (s : List Char) : List Char :=
  ((s.dropWhile Char.isWhitespace).reverse.dropWhile Char.isWhitespace).reverse

/-- Python `s.split()` with no separator: split on runs of whitespace,
producing no empty tokens. -/
def pySplitWsAux : List Char → List Char → List (List Char)
  | [], cur => if cur.isEmpty then [] else [cur.reverse]
  | c :: cs, cur =>
    if c.isWhitespace then
      if cur.isEmpty then pySplitWsAux cs []
      else cur.reverse :: pySplitWsAux cs []
    else pySplitWsAux cs (c :: cur)

/-- `pair.strip().split()` from the source. -/
def segTokens (pair : List Char) : List (List Char) :=
  pySplitWsAux (pyStrip pair) []

/-- Value of a list of ASCII decimal digits. -/
def digitsVal (ds : List Char) : Nat :=
  ds.foldl (fun a c => 10 * a + (c.toNat - '0'.toNat)) 0

/-- Python `int(token)` on a whitespace-free token: an optional sign followed
by at least one decimal digit; anything else raises `ValueError` (underscore
grouping and non-ASCII digits are not modelled). -/
def pyInt? (t : List Char) : Option Int :=
  match t with
  | '-' :: ds =>
    if ds ≠ [] ∧ ds.all Char.isDigit then some (-(digitsVal ds : Int)) else none
  | '+' :: ds =>
    if ds ≠ [] ∧ ds.all Char.isDigit then some (digitsVal ds : Int) else none
  | ds =>
    if ds ≠ [] ∧ ds.all Char.isDigit then some (digitsVal ds : Int) else none

/-- The `for` loop of `parse_input` over the comma-separated segments:
2 tokens give `(number, count)`, 1 token gives `(number, default)`, any
other token count or a non-integer token raises, aborting the loop with
the offending segment embedded in the error. -/
def parseSegs (default_neighbors : Int) :
    List (List Char) → Except ParseError (List (Int × Int))
  | [] => .ok []
  | pair :: rest =>
    match segTokens pair with
    | [t0, t1] =>
      match pyInt? t0, pyInt? t1 with
      | some number, some neighbor_count =>
        (parseSegs default_neighbors rest).map
          (fun l => (number, neighbor_count) :: l)
      | _, _ => .error (.InvalidPairTokens (String.mk pair))
    | [t0] =>
      match pyInt? t0 with
      | some number =>
        (parseSegs default_neighbors rest).map
          (fun l => (number, default_neighbors) :: l)
      | none => .error (.InvalidSingleToken (String.mk pair))
    | _ => .error (.InvalidSegmentFormat (String.mk pair))

/-- `parse_input` from the source: split the input on `,` and parse each
segment in order, no deduplication and no sorting. -/
def parse_input (input_str : String) (default_neighbors : Int) :
    Except ParseError (List (Int × Int)) :=
  parseSegs default_neighbors (splitComma input_str.data)

/-- The radius of the last input pair whose number is `x`, when `x` occurs:
the reference point of the last-write-wins policy. -/
def lastRadius? (x : Int) (ps : List (Int × Int)) : Option Int :=
  ((ps.filter (fun p => p.1 = x)).getLast?).map Prod.snd

/-- The parsing contract of one comma segment, stated segment-locally:
2 integer tokens give `(number, count)`, 1 integer token gives
`(number, default)`, everything else is malformed (`none`). A successful
`parse_input` must return exactly these values in segment order. -/
def segPair? (default_neighbors : Int) (pair : List Char) : Option (Int × Int) :=
  match segTokens pair with
  | [t0, t1] =>
    match pyInt? t0, pyInt? t1 with
    | some number, some neighbor_count => some (number, neighbor_count)
    | _, _ => none
  | [t0] =>
    match pyInt? t0 with
    | some number => some (number, default_neighbors)
    | none => none
  | _ => none

lemma wheel_length : roulette_wheel.length = 37 := rfl

lemma total_numbers_eq : total_numbers = 37 := rfl

lemma wheel_nodup : roulette_wheel.Nodup := by decide

lemma wheel_mem_of_nat_le {n : Nat} (h : n ≤ 36) : (n : Int) ∈ roulette_wheel := by
  have hall : ∀ m : Nat, m < 37 → (m : Int) ∈ roulette_wheel := by decide
  exact hall n (Nat.lt_succ_of_le h)

lemma wheel_mem_bounds : ∀ k ∈ roulette_wheel, 0 ≤ k ∧ k ≤ 36 := by decide

lemma wheel_mem_iff {k : Int} : k ∈ roulette_wheel ↔ 0 ≤ k ∧ k ≤ 36 := by
  constructor
  · exact wheel_mem_bounds k
  · rintro ⟨h0, h36⟩
    have hk : k = ((k.toNat : Nat) : Int) := (Int.toNat_of_nonneg h0).symm
    rw [hk]
    exact wheel_mem_of_nat_le (by omega)

lemma intRange_length (a b : Int) : (intRange a b).length = (b - a).toNat := by
  simp only [intRange, List.length_map, List.length_range]

lemma intRange_getElem? {a b : Int} {j : Nat} (h : j < (b - a).toNat) :
    (intRange a b)[j]? = some (a + (j : Int)) := by
  rw [intRange, List.getElem?_map, List.getElem?_range h, Option.map_some']

lemma indexOf_lt_37 {n : Int} (hn : n ∈ roulette_wheel) :
    roulette_wheel.indexOf n < 37 := by
  simpa [wheel_length] using List.indexOf_lt_length.mpr hn

lemma wheelAt_indexOf {n : Int} (hn : n ∈ roulette_wheel) :
    wheelAt ((roulette_wheel.indexOf n : Nat) : Int) = n := by
  have hlt := indexOf_lt_37 hn
  have hmod : ((roulette_wheel.indexOf n : Nat) : Int) % (total_numbers : Int)
      = ((roulette_wheel.indexOf n : Nat) : Int) := by
    apply Int.emod_eq_of_lt (Int.ofNat_nonneg _)
    rw [total_numbers_eq]
    exact_mod_cast hlt
  rw [wheelAt, hmod, Int.toNat_ofNat]
  rw [List.getD_eq_getElem _ _ (by simpa [wheel_length] using hlt)]
  exact List.getElem_indexOf _

lemma neighborsOf_length (n : Int) (r : Nat) :
    (neighborsOf n (r : Int)).length = 2 * r + 1 := by
  simp only [neighborsOf, List.length_map, intRange_length]
  omega

lemma neighborsOf_middle {n : Int} (hn : n ∈ roulette_wheel) (r : Nat) :
    (neighborsOf n (r : Int))[r]? = some n := by
  unfold neighborsOf
  rw [List.getElem?_map, intRange_getElem? (by omega : r < ((r : Int) + 1 - -(r : Int)).toNat)]
  have h2 : -(r : Int) + (r : Int) = 0 := by ring
  simp only [Option.map_some', h2, add_zero]
  rw [wheelAt_indexOf hn]

lemma neighborsOf_zero {n : Int} (hn : n ∈ roulette_wheel) :
    neighborsOf n ((0 : Nat) : Int) = [n] := by
  unfold neighborsOf
  have h1 : intRange (-((0 : Nat) : Int)) (((0 : Nat) : Int) + 1) = [0] := by decide
  rw [h1]
  simp only [List.map_cons, List.map_nil, add_zero]
  rw [wheelAt_indexOf hn]

lemma roulette_neighbors_single {n r : Int} (hn : n ∈ roulette_wheel) (hr : 0 ≤ r) :
    roulette_neighbors [(n, r)] = .ok [(n, neighborsOf n r)] := by
  simp only [roulette_neighbors, rouletteLoop]
  rw [if_neg (not_not_intro hn), if_neg (not_lt.mpr hr)]
  rfl

lemma dictGet?_single (k : Int) (v : List Int) : dictGet? [(k, v)] k = some v := by
  simp [dictGet?]

lemma rouletteLoop_ok_valid (ps : List (Int × Int)) :
    ∀ (acc m : Dict), rouletteLoop ps acc = .ok m →
      ∀ p ∈ ps, p.1 ∈ roulette_wheel ∧ 0 ≤ p.2 := by
  induction ps with
  | nil => intro acc m _ p hp; exact absurd hp (List.not_mem_nil p)
  | cons q rest ih =>
    intro acc m h p hp
    obtain ⟨n, r⟩ := q
    simp only [rouletteLoop] at h
    by_cases h1 : n ∉ roulette_wheel
    · rw [if_pos h1] at h; exact Except.noConfusion h
    · rw [if_neg h1] at h
      by_cases h2 : r < 0
      · rw [if_pos h2] at h; exact Except.noConfusion h
      · rw [if_neg h2] at h
        rcases List.mem_cons.mp hp with rfl | hp'
        · exact ⟨not_not.mp h1, not_lt.mp h2⟩
        · exact ih _ m h p hp'

lemma keys_dictInsert (m : Dict) (k x : Int) (v : List Int) :
    x ∈ (dictInsert m k v).map Prod.fst ↔ x ∈ m.map Prod.fst ∨ x = k := by
  unfold dictInsert
  by_cases hk : m.any (fun p => p.1 = k) = true
  · rw [if_pos hk]
    rcases List.any_eq_true.mp hk with ⟨q, hq, hqk⟩
    have hqk' : q.1 = k := by simpa using hqk
    simp only [List.map_map, List.mem_map, Function.comp]
    constructor
    · rintro ⟨p, hp, hpx⟩
      by_cases hpk : p.1 = k
      · right; simpa [hpk] using hpx.symm
      · left; exact ⟨p, hp, by simpa [hpk] using hpx⟩
    · rintro (⟨p, hp, hpx⟩ | rfl)
      · by_cases hpk : p.1 = k
        · exact ⟨q, hq, by simp [hqk', hpk ▸ hpx]⟩
        · exact ⟨p, hp, by simpa [hpk] using hpx⟩
      · exact ⟨q, hq, by simp [hqk']⟩
  · rw [if_neg hk]
    simp only [List.map_append, List.mem_append, List.map_cons, List.map_nil,
      List.mem_cons, List.not_mem_nil, or_false]

lemma rouletteLoop_ok_keys (ps : List (Int × Int)) :
    ∀ (acc m : Dict), rouletteLoop ps acc = .ok m →
      ∀ x : Int, x ∈ m.map Prod.fst ↔ x ∈ acc.map Prod.fst ∨ x ∈ ps.map Prod.fst := by
  induction ps with
  | nil =>
    intro acc m h x
    simp only [rouletteLoop, Except.ok.injEq] at h
    subst h
    simp
  | cons q rest ih =>
    intro acc m h x
    obtain ⟨n, r⟩ := q
    simp only [rouletteLoop] at h
    by_cases h1 : n ∉ roulette_wheel
    · rw [if_pos h1] at h; exact Except.noConfusion h
    · rw [if_neg h1] at h
      by_cases h2 : r < 0
      · rw [if_pos h2] at h; exact Except.noConfusion h
      · rw [if_neg h2] at h
        rw [ih _ m h x, keys_dictInsert]
        simp only [List.map_cons, List.mem_cons]
        tauto

lemma parseSegs_length (d : Int) :
    ∀ (segs : List (List Char)) (l : List (Int × Int)),
      parseSegs d segs = .ok l → l.length = segs.length := by
  intro segs
  induction segs with
  | nil =>
    intro l h
    simp only [parseSegs, Except.ok.injEq] at h
    subst h
    rfl
  | cons pair rest ih =>
    intro l h
    simp only [parseSegs] at h
    split at h
    · split at h
      · rcases hrest : parseSegs d rest with e | l' <;> rw [hrest] at h <;>
          simp only [Except.map] at h
        · exact Except.noConfusion h
        · cases h
          simp [ih l' hrest]
      · exact Except.noConfusion h
    · split at h
      · rcases hrest : parseSegs d rest with e | l' <;> rw [hrest] at h <;>
          simp only [Except.map] at h
        · exact Except.noConfusion h
        · cases h
          simp [ih l' hrest]
      · exact Except.noConfusion h
    · exact Except.noConfusion h

lemma parseSegs_cons_format (d : Int) (pair : List Char) (rest : List (List Char))
    (h1 : (segTokens pair).length ≠ 1) (h2 : (segTokens pair).length ≠ 2) :
    parseSegs d (pair :: rest) = .error (.InvalidSegmentFormat (String.mk pair)) := by
  simp only [parseSegs]
  split
  · next t0 t1 heq => exact absurd (by rw [heq]; rfl : (segTokens pair).length = 2) h2
  · next t0 heq => exact absurd (by rw [heq]; rfl : (segTokens pair).length = 1) h1
  · rfl

lemma parseSegs_cons_pairerr (d : Int) (pair : List Char) (rest : List (List Char))
    (t0 t1 : List Char) (htok : segTokens pair = [t0, t1])
    (hbad : pyInt? t0 = none ∨ pyInt? t1 = none) :
    parseSegs d (pair :: rest) = .error (.InvalidPairTokens (String.mk pair)) := by
  rcases h0 : pyInt? t0 with _ | n
  · simp [parseSegs, htok, h0]
  · rcases h1 : pyInt? t1 with _ | c
    · simp [parseSegs, htok, h0, h1]
    · rcases hbad with hb | hb
      · rw [h0] at hb; exact Option.noConfusion hb
      · rw [h1] at hb; exact Option.noConfusion hb

lemma parseSegs_cons_singleerr (d : Int) (pair : List Char) (rest : List (List Char))
    (t0 : List Char) (htok : segTokens pair = [t0]) (hb : pyInt? t0 = none) :
    parseSegs d (pair :: rest) = .error (.InvalidSingleToken (String.mk pair)) := by
  simp [parseSegs, htok, hb]

lemma find?_update_self (m : Dict) (k : Int) (v : List Int)
    (hk : m.any (fun p => p.1 = k) = true) :
    (m.map (fun p => if p.1 = k then (k, v) else p)).find? (fun p => p.1 = k)
      = some (k, v) := by
  induction m with
  | nil => simp at hk
  | cons q m' ih =>
    simp only [List.map_cons]
    by_cases hq : q.1 = k
    · rw [if_pos hq]
      rw [List.find?_cons_of_pos _ (by simp)]
    · rw [if_neg hq]
      rw [List.find?_cons_of_neg _ (by simp [hq])]
      exact ih (by simpa [hq] using hk)

lemma find?_update_ne (m : Dict) (k x : Int) (v : List Int) (hx : x ≠ k) :
    (m.map (fun p => if p.1 = k then (k, v) else p)).find? (fun p => p.1 = x)
      = m.find? (fun p => p.1 = x) := by
  induction m with
  | nil => rfl
  | cons q m' ih =>
    simp only [List.map_cons]
    by_cases hq : q.1 = k
    · rw [if_pos hq]
      rw [List.find?_cons_of_neg _ (by simp [Ne.symm hx])]
      rw [List.find?_cons_of_neg _ (by simp [hq, Ne.symm hx])]
      exact ih
    · rw [if_neg hq]
      by_cases hqx : q.1 = x
      · rw [List.find?_cons_of_pos _ (by simp [hqx]),
          List.find?_cons_of_pos _ (by simp [hqx])]
      · rw [List.find?_cons_of_neg _ (by simp [hqx]),
          List.find?_cons_of_neg _ (by simp [hqx])]
        exact ih

lemma dictGet?_insert_self (m : Dict) (k : Int) (v : List Int) :
    dictGet? (dictInsert m k v) k = some v := by
  unfold dictInsert dictGet?
  by_cases hk : m.any (fun p => p.1 = k) = true
  · rw [if_pos hk, find?_update_self m k v hk]
    rfl
  · rw [if_neg hk, List.find?_append]
    have hnone : m.find? (fun p => p.1 = k) = none := by
      rw [List.find?_eq_none]
      intro p hp hpk
      exact hk (List.any_eq_true.mpr ⟨p, hp, hpk⟩)
    rw [hnone]
    simp [List.find?]

lemma dictGet?_insert_ne (m : Dict) (k x : Int) (v : List Int) (hx : x ≠ k) :
    dictGet? (dictInsert m k v) x = dictGet? m x := by
  unfold dictInsert dictGet?
  by_cases hk : m.any (fun p => p.1 = k) = true
  · rw [if_pos hk, find?_update_ne m k x v hx]
  · rw [if_neg hk, List.find?_append]
    have h2 : List.find? (fun p => p.1 = x) ([(k, v)] : Dict) = none := by
      simp [List.find?, Ne.symm hx]
    rw [h2]
    cases m.find? (fun p => p.1 = x) <;> rfl

lemma lastRadius?_snoc_self (x r : Int) (ps : List (Int × Int)) :
    lastRadius? x (ps ++ [(x, r)]) = some r := by
  unfold lastRadius?
  rw [List.filter_append]
  have h1 : List.filter (fun p => p.1 = x) ([(x, r)] : List (Int × Int)) = [(x, r)] := by
    simp [List.filter]
  rw [h1, List.getLast?_concat]
  rfl

lemma lastRadius?_snoc_ne (x n r : Int) (hx : x ≠ n) (ps : List (Int × Int)) :
    lastRadius? x (ps ++ [(n, r)]) = lastRadius? x ps := by
  unfold lastRadius?
  rw [List.filter_append]
  have h1 : List.filter (fun p => p.1 = x) ([(n, r)] : List (Int × Int)) = [] := by
    simp [List.filter, Ne.symm hx]
  rw [h1, List.append_nil]

lemma rouletteLoop_append (l1 l2 : List (Int × Int)) (acc : Dict) :
    rouletteLoop (l1 ++ l2) acc =
      match rouletteLoop l1 acc with
      | .ok m1 => rouletteLoop l2 m1
      | .error e => .error e := by
  induction l1 generalizing acc with
  | nil => rfl
  | cons q rest ih =>
    obtain ⟨n, r⟩ := q
    simp only [List.cons_append, rouletteLoop]
    by_cases h1 : n ∉ roulette_wheel
    · rw [if_pos h1, if_pos h1]
    · rw [if_neg h1, if_neg h1]
      by_cases h2 : r < 0
      · rw [if_pos h2, if_pos h2]
      · rw [if_neg h2, if_neg h2]
        exact ih _

lemma rouletteLoop_ok_get (ps : List (Int × Int)) :
    ∀ (acc m : Dict), rouletteLoop ps acc = .ok m → ∀ x : Int,
      (∀ r : Int, lastRadius? x ps = some r →
        dictGet? m x = some (neighborsOf x r)) ∧
      (lastRadius? x ps = none → dictGet? m x = dictGet? acc x) := by
  induction ps using List.reverseRecOn with
  | nil =>
    intro acc m h x
    simp only [rouletteLoop, Except.ok.injEq] at h
    subst h
    exact ⟨fun r hr => Option.noConfusion hr, fun _ => rfl⟩
  | append_singleton ps' q ih =>
    intro acc m h x
    obtain ⟨n, r0⟩ := q
    rw [rouletteLoop_append] at h
    split at h
    · next m1 hmid =>
      simp only [rouletteLoop] at h
      by_cases h1 : n ∉ roulette_wheel
      · rw [if_pos h1] at h
        exact Except.noConfusion h
      · rw [if_neg h1] at h
        by_cases h2 : r0 < 0
        · rw [if_pos h2] at h
          exact Except.noConfusion h
        · rw [if_neg h2] at h
          cases h
          by_cases hx : x = n
          · subst hx
            refine ⟨fun r hr => ?_, fun hr => ?_⟩
            · rw [lastRadius?_snoc_self] at hr
              cases hr
              exact dictGet?_insert_self m1 x _
            · rw [lastRadius?_snoc_self] at hr
              exact Option.noConfusion hr
          · refine ⟨fun r hr => ?_, fun hr => ?_⟩
            · rw [lastRadius?_snoc_ne x n r0 hx] at hr
              rw [dictGet?_insert_ne m1 n x _ hx]
              exact (ih acc m1 hmid x).1 r hr
            · rw [lastRadius?_snoc_ne x n r0 hx] at hr
              rw [dictGet?_insert_ne m1 n x _ hx]
              exact (ih acc m1 hmid x).2 hr
    · next e hmid =>
      exact Except.noConfusion h

lemma parseSegs_map_segPair (d : Int) :
    ∀ (segs : List (List Char)) (l : List (Int × Int)),
      parseSegs d segs = .ok l → segs.map (segPair? d) = l.map some := by
  intro segs
  induction segs with
  | nil =>
    intro l h
    simp only [parseSegs, Except.ok.injEq] at h
    subst h
    rfl
  | cons pair rest ih =>
    intro l h
    simp only [parseSegs] at h
    split at h
    · next t0 t1 htok =>
      split at h
      · next n c h0 h1 =>
        rcases hrest : parseSegs d rest with e | l' <;> rw [hrest] at h <;>
          simp only [Except.map] at h
        · exact Except.noConfusion h
        · cases h
          simp only [List.map_cons]
          rw [ih l' hrest]
          congr 1
          simp [segPair?, htok, h0, h1]
      · exact Except.noConfusion h
    · next t0 htok =>
      split at h
      · next n h0 =>
        rcases hrest : parseSegs d rest with e | l' <;> rw [hrest] at h <;>
          simp only [Except.map] at h
        · exact Except.noConfusion h
        · cases h
          simp only [List.map_cons]
          rw [ih l' hrest]
          congr 1
          simp [segPair?, htok, h0]
      · exact Except.noConfusion h
    · exact Except.noConfusion h

/-- C1: for every number `n` in 0–36 and radius `r ≥ 0`, `roulette_neighbors`
on the single pair `(n, r)` succeeds, and the list its result maps `n` to has
length `2r+1` with middle element `n`; for `r = 0` it is exactly `[n]`. -/
theorem C1_single_pair_shape (n r : Nat) (hn : n ≤ 36) :
    ∃ (m : Dict) (l : List Int),
      roulette_neighbors [((n : Int), (r : Int))] = .ok m ∧
      dictGet? m (n : Int) = some l ∧
      l.length = 2 * r + 1 ∧
      l[r]? = some ((n : Int)) ∧
      (r = 0 → l = [(n : Int)]) := by
  have hmem := wheel_mem_of_nat_le hn
  refine ⟨[((n : Int), neighborsOf n r)], neighborsOf n r,
    roulette_neighbors_single hmem (Int.ofNat_nonneg r), dictGet?_single _ _,
    neighborsOf_length _ r, neighborsOf_middle hmem r, ?_⟩
  rintro rfl
  exact neighborsOf_zero hmem

theorem C1_witness :
    ∃ (m : Dict) (l : List Int),
      roulette_neighbors [(((3 : Nat) : Int), ((1 : Nat) : Int))] = .ok m ∧
      dictGet? m ((3 : Nat) : Int) = some l ∧
      l.length = 2 * 1 + 1 ∧
      l[(1 : Nat)]? = some (((3 : Nat) : Int)) ∧
      ((1 : Nat) = 0 → l = [((3 : Nat) : Int)]) :=
  C1_single_pair_shape 3 1 (by decide)

/-- C2: the neighbor list wraps cyclically around the ends of the wheel:
`roulette_neighbors([(0, 1)])` maps `0` to exactly `[26, 0, 32]`. -/
theorem C2_wraparound :
    roulette_neighbors [(0, 1)] = .ok [(0, [26, 0, 32])] ∧
    dictGet? [(0, [26, 0, 32])] 0 = some [26, 0, 32] := by
  exact ⟨rfl, rfl⟩

/-- C3: last-write-wins on duplicate input numbers, in general: whenever
`roulette_neighbors` succeeds, the result maps each number `x` to the
neighbor list computed from the last input pair whose number is `x`; in
particular `roulette_neighbors([(3, 1), (3, 0)])` is exactly `{3: [3]}`. -/
theorem C3_last_write_wins :
    (∀ (ps : List (Int × Int)) (m : Dict), roulette_neighbors ps = .ok m →
      ∀ (x r : Int), lastRadius? x ps = some r →
        dictGet? m x = some (neighborsOf x r)) ∧
    roulette_neighbors [(3, 1), (3, 0)] = .ok [(3, [3])] :=
  ⟨fun ps m h x r hlast => (rouletteLoop_ok_get ps [] m h x).1 r hlast, rfl⟩

theorem C3_witness :
    dictGet? [(3, [3])] 3 = some (neighborsOf 3 0) ∧ neighborsOf 3 0 = [3] :=
  ⟨C3_last_write_wins.1 [(3, 1), (3, 0)] [(3, [3])] rfl 3 0 rfl, rfl⟩

/-- C4: on success `parse_input` returns, in input segment order, exactly the
segment-local parse of each comma segment — one output pair per segment (no
deduplication, no sorting) with `default_neighbors` substituted as the radius
of 1-token segments; in particular `parse_input("3 3, 8 1, 12", 1)` is exactly
`[(3,3), (8,1), (12,1)]`, and with non-ascending numbers and a distinct
default, `parse_input("12 3, 5, 8 1", 2)` is exactly `[(12,3), (5,2), (8,1)]`. -/
theorem C4_parser_roundtrip :
    (∀ (d : Int) (segs : List (List Char)) (l : List (Int × Int)),
      parseSegs d segs = .ok l → segs.map (segPair? d) = l.map some) ∧
    parse_input "3 3, 8 1, 12" 1 = .ok [(3, 3), (8, 1), (12, 1)] ∧
    parse_input "12 3, 5, 8 1" 2 = .ok [(12, 3), (5, 2), (8, 1)] :=
  ⟨parseSegs_map_segPair, rfl, rfl⟩

theorem C4_witness :
    (splitComma "12 3, 5, 8 1".data).map (segPair? 2)
      = ([(12, 3), (5, 2), (8, 1)] : List (Int × Int)).map some :=
  C4_parser_roundtrip.1 2 (splitComma "12 3, 5, 8 1".data) _ rfl

/-- C5: `parse_input` classifies malformed segments, embedding the offending
segment verbatim: a segment with token count other than 1 or 2 raises
`InvalidSegmentFormat`, a 2-token segment with a non-integer token raises
`InvalidPairTokens`, a 1-token segment with a non-integer token raises
`InvalidSingleToken`; in particular `parse_input("abc", 1)` raises
`InvalidSingleToken` and `parse_input("3 3 3", 1)` raises
`InvalidSegmentFormat`. -/
theorem C5_parse_error_classes :
    (∀ (d : Int) (pair : List Char) (rest : List (List Char)),
      (segTokens pair).length ≠ 1 → (segTokens pair).length ≠ 2 →
      parseSegs d (pair :: rest) = .error (.InvalidSegmentFormat (String.mk pair))) ∧
    (∀ (d : Int) (pair : List Char) (rest : List (List Char)) (t0 t1 : List Char),
      segTokens pair = [t0, t1] → (pyInt? t0 = none ∨ pyInt? t1 = none) →
      parseSegs d (pair :: rest) = .error (.InvalidPairTokens (String.mk pair))) ∧
    (∀ (d : Int) (pair : List Char) (rest : List (List Char)) (t0 : List Char),
      segTokens pair = [t0] → pyInt? t0 = none →
      parseSegs d (pair :: rest) = .error (.InvalidSingleToken (String.mk pair))) ∧
    parse_input "abc" 1 = .error (.InvalidSingleToken "abc") ∧
    parse_input "3 3 3" 1 = .error (.InvalidSegmentFormat "3 3 3") :=
  ⟨parseSegs_cons_format, parseSegs_cons_pairerr, parseSegs_cons_singleerr, rfl, rfl⟩

theorem C5_witness :
    parseSegs 1 ["8 x".data] = .error (.InvalidPairTokens (String.mk "8 x".data)) :=
  C5_parse_error_classes.2.1 1 "8 x".data [] "8".data "x".data (by rfl) (Or.inr (by rfl))

/-- C6: `roulette_neighbors` raises `NumberOutOfRange` when a pair's number is
not a wheel value and `NegativeNeighborCount` when a pair's radius is
negative; the first error aborts the call with no partial result (the loop
returns the bare error whatever pairs remain and whatever was accumulated):
`roulette_neighbors([(99, 1)])` and `roulette_neighbors([(5, -1)])` raise. -/
theorem C6_resolver_errors :
    (∀ (n r : Int) (rest : List (Int × Int)) (acc : Dict), n ∉ roulette_wheel →
      rouletteLoop ((n, r) :: rest) acc = .error (.NumberOutOfRange n)) ∧
    (∀ (n r : Int) (rest : List (Int × Int)) (acc : Dict), n ∈ roulette_wheel → r < 0 →
      rouletteLoop ((n, r) :: rest) acc = .error (.NegativeNeighborCount n)) ∧
    roulette_neighbors [(99, 1)] = .error (.NumberOutOfRange 99) ∧
    roulette_neighbors [(5, -1)] = .error (.NegativeNeighborCount 5) := by
  refine ⟨?_, ?_, rfl, rfl⟩
  · intro n r rest acc hn
    simp only [rouletteLoop]
    rw [if_pos hn]
  · intro n r rest acc hn hr
    simp only [rouletteLoop]
    rw [if_neg (not_not_intro hn), if_pos hr]

theorem C6_witness :
    rouletteLoop [((99 : Int), (1 : Int))] [] = .error (.NumberOutOfRange 99) :=
  C6_resolver_errors.1 99 1 [] [] (by decide)

/-- C7: the wheel constant has exactly 37 entries, membership in it is
equivalent to `0 ≤ k ≤ 36`, and every member appears exactly once. (It is a
top-level constant of the embedding; nothing in the program mutates it.) -/
theorem C7_wheel_invariant :
    roulette_wheel.length = 37 ∧
    (∀ k : Int, k ∈ roulette_wheel ↔ 0 ≤ k ∧ k ≤ 36) ∧
    (∀ k : Int, k ∈ roulette_wheel → roulette_wheel.count k = 1) := by
  refine ⟨rfl, fun k => wheel_mem_iff, fun k hk => ?_⟩
  exact List.count_eq_one_of_mem wheel_nodup hk

theorem C7_witness : roulette_wheel.count 0 = 1 :=
  C7_wheel_invariant.2.2 0 (by decide)

lemma neighbors18_full : ∀ m : Nat, m < 37 →
    (neighborsOf (m : Int) 18).length = 37 ∧
    (∀ k ∈ roulette_wheel, (neighborsOf (m : Int) 18).count k = 1) ∧
    (neighborsOf (m : Int) 18).head?
      = some (wheelAt ((roulette_wheel.indexOf (m : Int) : Int) + 19)) ∧
    (neighborsOf (m : Int) 18).getLast?
      = some (wheelAt ((roulette_wheel.indexOf (m : Int) : Int) + 18)) := by
  decide

/-- C8: for every number `n` in 0–36, radius 18 yields a full traversal: the
list has length 37, contains every wheel number exactly once, and begins and
ends at the two positions adjacent to the spot diametrically opposite `n`
(offsets `-18 ≡ +19` and `+18` around `n`'s wheel index). -/
theorem C8_half_wheel (n : Nat) (hn : n ≤ 36) :
    ∃ l : List Int,
      roulette_neighbors [((n : Int), 18)] = .ok [((n : Int), l)] ∧
      l.length = 37 ∧
      (∀ k ∈ roulette_wheel, l.count k = 1) ∧
      l.head? = some (wheelAt ((roulette_wheel.indexOf (n : Int) : Int) + 19)) ∧
      l.getLast? = some (wheelAt ((roulette_wheel.indexOf (n : Int) : Int) + 18)) := by
  have hmem := wheel_mem_of_nat_le hn
  have hfull := neighbors18_full n (Nat.lt_succ_of_le hn)
  exact ⟨neighborsOf (n : Int) 18,
    roulette_neighbors_single hmem (by norm_num), hfull.1, hfull.2.1,
    hfull.2.2.1, hfull.2.2.2⟩

theorem C8_witness :
    ∃ l : List Int,
      roulette_neighbors [(((0 : Nat) : Int), 18)] = .ok [(((0 : Nat) : Int), l)] ∧
      l.length = 37 ∧
      (∀ k ∈ roulette_wheel, l.count k = 1) ∧
      l.head? = some (wheelAt ((roulette_wheel.indexOf ((0 : Nat) : Int) : Int) + 19)) ∧
      l.getLast? = some (wheelAt ((roulette_wheel.indexOf ((0 : Nat) : Int) : Int) + 18)) :=
  C8_half_wheel 0 (by decide)

/-- C9 counterexample: `parse_input` succeeds on `"99 -5"` although 99 is not
in `[0, 36]` and −5 is negative — the parser does no range validation. -/
theorem C9_counterexample :
    parse_input "99 -5" 1 = .ok [(99, -5)] ∧
    ¬(((0 : Int) ≤ 99 ∧ (99 : Int) ≤ 36) ∧ (0 : Int) ≤ -5) :=
  ⟨rfl, by decide⟩

/-- C9 (amended): a pair produced by `parse_input` is only guaranteed to have
its number in `[0, 36]` and its radius non-negative once `roulette_neighbors`
has succeeded on the parsed pairs — the range checks live in the resolver,
not in the parser. -/
theorem C9_validated_pairs (s : String) (d : Int) (ps : List (Int × Int)) (m : Dict)
    (hp : parse_input s d = .ok ps) (hm : roulette_neighbors ps = .ok m) :
    ∀ p ∈ ps, (0 ≤ p.1 ∧ p.1 ≤ 36) ∧ 0 ≤ p.2 := by
  intro p hps
  have hv := rouletteLoop_ok_valid ps [] m hm p hps
  exact ⟨wheel_mem_bounds p.1 hv.1, hv.2⟩

theorem C9_witness :
    (0 ≤ ((3 : Int), (1 : Int)).1 ∧ ((3 : Int), (1 : Int)).1 ≤ 36) ∧
      0 ≤ ((3 : Int), (1 : Int)).2 :=
  C9_validated_pairs "3 1" 1 [(3, 1)] [(3, [35, 3, 26])] rfl rfl (3, 1) (by decide)

/-- C10: whenever `roulette_neighbors` succeeds, the key set of the returned
mapping is exactly the set of numbers occurring in the input pairs; on the
empty input it returns the empty mapping rather than failing. -/
theorem C10_result_keys :
    roulette_neighbors [] = .ok [] ∧
    ∀ (ps : List (Int × Int)) (m : Dict), roulette_neighbors ps = .ok m →
      ∀ x : Int, x ∈ m.map Prod.fst ↔ x ∈ ps.map Prod.fst := by
  refine ⟨rfl, fun ps m h x => ?_⟩
  have hk := rouletteLoop_ok_keys ps [] m h x
  simpa using hk

theorem C10_witness :
    (0 : Int) ∈ ([(0, [26, 0, 32])] : Dict).map Prod.fst ↔
      (0 : Int) ∈ ([(0, 1)] : List (Int × Int)).map Prod.fst :=
  C10_result_keys.2 [(0, 1)] [(0, [26, 0, 32])] rfl 0
